import Mathlib

/-!
Verification of the `calculus-solver` expression engine (`src/entity.rs`).

The Rust code builds symbolic expression trees (`ConstantTerm`, `VariableTerm`,
`SummationFunction`, `MultiplicationFunction`, all behind the `Entity` trait)
and differentiates / canonicalises them.  We model the four node kinds as one
inductive type.  Design notes for the shallow embedding:

* `f64` values are modelled as `ℚ` (all arithmetic the claims exercise is
  exact integer arithmetic; float rounding plays no role in any claim).
* `i32` exponents are modelled as `ℤ`; no claim depends on 32-bit overflow.
* Rust `String`s are modelled as `List Char`; string building (push, the
  `truncate(len-1)` idiom, `starts_with`) becomes plain list operations.
* Methods that can panic (`unwrap`, out-of-bounds indexing, the explicit
  `panic!` in `VariableTerm::collapse`) are modelled with `Option`, `none`
  meaning the program aborts.
* `collapse(&mut self)` mutates in place; we model it as a state function
  `Entity → Option Entity` (old tree in, new tree out).
* `SummationFunction::collapse` contains a `while` loop.  It is embedded
  both as a fuel-indexed function (used by `collapse` with fuel
  `length + 1`, which is proved sufficient) and as a well-founded
  recursion; the two are proved equal.
* `differentiate` on `MultiplicationFunction` genuinely fails to terminate
  on some inputs (two `Function`-kind operands reproduce themselves), so
  `differentiate` carries a fuel parameter bounding the nesting of
  `Function`-node differentiation; `none` covers both panic and
  non-termination.
-/

namespace CalculusSolver

/-- Rational addition, written so that the kernel can evaluate it on
integral literals (plain `Rat.add` gets stuck on `Nat.gcd` during kernel
reduction); `qAdd_eq` below proves it is exactly `+`. -/
def qAdd (a b : ℚ) : ℚ :=
  if a.den = 1 ∧ b.den = 1 then ((a.num + b.num : ℤ) : ℚ) else a + b

/-- Rational multiplication, kernel-evaluable on integral literals;
`qMul_eq` below proves it is exactly `*`. -/
def qMul (a b : ℚ) : ℚ :=
  if a.den = 1 ∧ b.den = 1 then ((a.num * b.num : ℤ) : ℚ) else a * b

theorem num_cast_eq_self {a : ℚ} (h : a.den = 1) : ((a.num : ℤ) : ℚ) = a := by
  rw [← Rat.num_div_den a, h]
  simp

theorem qAdd_eq (a b : ℚ) : qAdd a b = a + b := by
  unfold qAdd
  split
  · rename_i h
    obtain ⟨h1, h2⟩ := h
    push_cast
    rw [num_cast_eq_self h1, num_cast_eq_self h2]
  · rfl

theorem qMul_eq (a b : ℚ) : qMul a b = a * b := by
  unfold qMul
  split
  · rename_i h
    obtain ⟨h1, h2⟩ := h
    push_cast
    rw [num_cast_eq_self h1, num_cast_eq_self h2]
  · rfl

/-- Decimal digit to character, as produced by Rust's integer `Display`. -/
def digitChar : Nat → Char
  | 0 => '0'
  | 1 => '1'
  | 2 => '2'
  | 3 => '3'
  | 4 => '4'
  | 5 => '5'
  | 6 => '6'
  | 7 => '7'
  | 8 => '8'
  | 9 => '9'
  | _ => '?'

/-- Digits of `n` in base 10, most significant first; fuel-structural so it
reduces in the kernel.  `natCharsAux f n` is correct whenever `n ≤ f`. -/
def natCharsAux : Nat → Nat → List Char
  | 0, _ => []
  | _ + 1, 0 => []
  | f + 1, n + 1 => natCharsAux f ((n + 1) / 10) ++ [digitChar ((n + 1) % 10)]

/-- Decimal rendering of a natural number (Rust `Display` for unsigned ints). -/
def natChars (n : Nat) : List Char :=
  if n = 0 then ['0'] else natCharsAux n n

/-- Decimal rendering of an integer (Rust `Display` for `i32`, and for `f64`
values that are integral, which is every numeric value the program prints). -/
def intChars (i : Int) : List Char :=
  if i < 0 then '-' :: natChars i.natAbs else natChars i.toNat

/-- Rendering of a `ConstantTerm` numeric value.  All values reached by the
claims are integral; non-integral rationals get a fraction rendering (the
Rust code would print a float expansion there, but no claim touches it). -/
def valueChars (q : ℚ) : List Char :=
  if q.den = 1 then intChars q.num else intChars q.num ++ '/' :: natChars q.den

/-- Rust `VariableEntity`: a variable name together with an integer power. -/
structure VariableEntity where
  name : String
  power : Int
deriving DecidableEq, Repr

/-- Rust `VariableEntity::to_string`: `name^power`, with `^power` omitted when the
power is exactly 1. -/
def VariableEntity.render (v : VariableEntity) : List Char :=
  if v.power ≠ 1 then v.name.toList ++ '^' :: intChars v.power else v.name.toList

/-- The four concrete `Entity` implementations of `src/entity.rs`:
`ConstantTerm` (value, incidental variables), `VariableTerm` (active
variable, coefficient list), `SummationFunction` (term list) and
`MultiplicationFunction` (two operands). -/
inductive Entity where
  | const (value : ℚ) (nonWrtVariables : List VariableEntity) : Entity
  | var (active : VariableEntity) (coeffs : List Entity) : Entity
  | sum (terms : List Entity) : Entity
  | mul (first second : Entity) : Entity

instance : Inhabited Entity := ⟨.const 0 []⟩

mutual
/-- Structural equality test for `Entity` (deriving `DecidableEq` does not
handle the nested `List`). -/
def Entity.beq : Entity → Entity → Bool
  | .const v1 l1, .const v2 l2 => decide (v1 = v2) && decide (l1 = l2)
  | .var a1 c1, .var a2 c2 => decide (a1 = a2) && beqList c1 c2
  | .sum t1, .sum t2 => beqList t1 t2
  | .mul a1 b1, .mul a2 b2 => Entity.beq a1 a2 && Entity.beq b1 b2
  | _, _ => false

def beqList : List Entity → List Entity → Bool
  | [], [] => true
  | a :: as, b :: bs => Entity.beq a b && beqList as bs
  | _, _ => false
end

mutual
theorem beq_iff : ∀ (a b : Entity), Entity.beq a b = true ↔ a = b
  | .const v1 l1, .const v2 l2 => by
      simp [Entity.beq]
  | .var a1 c1, .var a2 c2 => by
      simp [Entity.beq, beqList_iff c1 c2]
  | .sum t1, .sum t2 => by
      simp [Entity.beq, beqList_iff t1 t2]
  | .mul a1 b1, .mul a2 b2 => by
      simp [Entity.beq, beq_iff a1 a2, beq_iff b1 b2]
  | .const _ _, .var _ _ => by simp [Entity.beq]
  | .const _ _, .sum _ => by simp [Entity.beq]
  | .const _ _, .mul _ _ => by simp [Entity.beq]
  | .var _ _, .const _ _ => by simp [Entity.beq]
  | .var _ _, .sum _ => by simp [Entity.beq]
  | .var _ _, .mul _ _ => by simp [Entity.beq]
  | .sum _, .const _ _ => by simp [Entity.beq]
  | .sum _, .var _ _ => by simp [Entity.beq]
  | .sum _, .mul _ _ => by simp [Entity.beq]
  | .mul _ _, .const _ _ => by simp [Entity.beq]
  | .mul _ _, .var _ _ => by simp [Entity.beq]
  | .mul _ _, .sum _ => by simp [Entity.beq]

theorem beqList_iff : ∀ (a b : List Entity), beqList a b = true ↔ a = b
  | [], [] => by simp [beqList]
  | a :: as, b :: bs => by
      simp [beqList, beq_iff a b, beqList_iff as bs]
  | [], _ :: _ => by simp [beqList]
  | _ :: _, [] => by simp [beqList]
end

instance : DecidableEq Entity := fun a b => decidable_of_iff _ (beq_iff a b)

/-- The runtime kind tag (`EntityKind` in the source). -/
inductive EntityKind where
  | Constant
  | Variable
  | Function
deriving DecidableEq, Repr

/-- Rust `get_kind`: constructors set `Constant` / `Variable` on the two term
types and `Function` on both function types; nothing ever changes the tag. -/
def Entity.kind : Entity → EntityKind
  | .const _ _ => .Constant
  | .var _ _ => .Variable
  | .sum _ => .Function
  | .mul _ _ => .Function

/-- Rust `s.starts_with("0")`. -/
def startsWithZero : List Char → Bool
  | '0' :: _ => true
  | _ => false

/-- Rust `ConstantTerm::to_str`: `"0"` when the value is zero, otherwise the value
and each incidental variable joined by `*` (built with a trailing `*` that
`truncate(len - 1)` removes). -/
def constantToStr (value : ℚ) (vars : List VariableEntity) : List Char :=
  if value = 0 then ['0']
  else (vars.foldl (fun acc v => acc ++ v.render ++ ['*']) (valueChars value ++ ['*'])).dropLast

mutual
/-- Rust `Entity::to_str` for each node kind (`VariableTerm::to_str`,
`SummationFunction::to_str`, `MultiplicationFunction::to_str`). -/
def Entity.toStr : Entity → List Char
  | .const v vars => constantToStr v vars
  | .var ve cs =>
      match coeffsToStr cs with
      | none => ['0']
      | some (acc, added) => (if added then acc.dropLast else acc) ++ ve.render
  | .sum ts =>
      let p := sumToStr ts
      if p.2 then p.1.dropLast.dropLast.dropLast else p.1
  | .mul a b =>
      let s1 := Entity.toStr a
      let s2 := Entity.toStr b
      if s1 = ['1'] then s2 else if s2 = ['1'] then s1 else s1 ++ '*' :: s2

/-- The coefficient loop of `VariableTerm::to_str`: coefficients rendering
`"1"` are skipped, a coefficient rendering with a leading `0` aborts the
whole rendering to `"0"` (`none` here); otherwise coefficients are joined
with `*` (trailing `*` removed by the caller when anything was added). -/
def coeffsToStr : List Entity → Option (List Char × Bool)
  | [] => some ([], false)
  | c :: rest =>
      let s := Entity.toStr c
      if s = ['1'] then coeffsToStr rest
      else if startsWithZero s then none
      else
        match coeffsToStr rest with
        | none => none
        | some (acc, _) => some (s ++ '*' :: acc, true)

/-- The term loop of `SummationFunction::to_str`: terms rendering with a
leading `0` are skipped, the rest joined by `" + "` (trailing separator
removed by the caller when anything was added). -/
def sumToStr : List Entity → (List Char × Bool)
  | [] => ([], false)
  | t :: rest =>
      let s := Entity.toStr t
      let p := sumToStr rest
      if startsWithZero s then p
      else (s ++ ' ' :: '+' :: ' ' :: p.1, true)
end

/-- Rust `ConstantTerm::can_add_if_collapsed`: the incidental-variable lists must
be equal (element-wise name and power, same order). -/
def canAddConst (l1 l2 : List VariableEntity) : Bool :=
  decide (l1 = l2)

/-- Rust `ConstantTerm::multiply`: multiplies the values and adds the powers of
`other`'s incidental variables into `self`'s position-wise.  The loop indexes
`other.non_wrt_variables[i]` for every `i` below `self`'s length, so it
panics (`none`) when `other`'s list is shorter; surplus entries of `other`
are silently dropped. -/
def constMultiply (v1 : ℚ) (l1 : List VariableEntity) (v2 : ℚ) (l2 : List VariableEntity) :
    Option (ℚ × List VariableEntity) :=
  if l2.length < l1.length then none
  else some (qMul v1 v2, l1.zipWith (fun a b => ⟨a.name, a.power + b.power⟩) l2)

/-- The name-collection part of `ConstantTerm::collapse`: the distinct
incidental-variable names (the `HashMap` key set). -/
def collectNames : List VariableEntity → List String → List String
  | [], acc => acc
  | v :: rest, acc =>
      if v.name ∈ acc then collectNames rest acc else collectNames rest (acc ++ [v.name])

/-- Total power accumulated for one name (the `HashMap` value). -/
def powerOfName (l : List VariableEntity) (n : String) : Int :=
  (l.foldl (fun acc v => if v.name = n then acc + v.power else acc) 0)

/-- Insertion into a list sorted by name (`Ord for VariableEntity` compares
names only). -/
def insertByName (v : VariableEntity) : List VariableEntity → List VariableEntity
  | [] => [v]
  | w :: rest => if v.name ≤ w.name then v :: w :: rest else w :: insertByName v rest

/-- Sorting by name.  The Rust code sorts the `HashMap`'s entries with
`Vec::sort`; the keys are distinct, so any sort by name produces the same
list and the `HashMap`'s iteration order is irrelevant. -/
def sortByName (l : List VariableEntity) : List VariableEntity :=
  l.foldr insertByName []

/-- Rust `ConstantTerm::collapse`: group the incidental variables by name summing
powers, then sort by name.  Zero-power entries are kept. -/
def collapseVarList (l : List VariableEntity) : List VariableEntity :=
  sortByName ((collectNames l []).map (fun n => ⟨n, powerOfName l n⟩))

mutual
/-- Rust `VariableTerm::equal_coeffs`: walks `self`'s coefficients by index.
Constant coefficients are skipped outright; a non-constant coefficient
indexes `other.coeffs[i]` (panic — `none` — when `other` is shorter); when
the kinds at `i` agree the pair must be compatible (recursive
`can_add_if_collapsed` for Variable, always true for Function), and when the
kinds differ the position is ignored. -/
def equalCoeffs : List Entity → List Entity → Option Bool
  | [], _ => some true
  | .const _ _ :: rest, others => equalCoeffs rest others.tail
  | _ :: _, [] => none
  | c :: rest, o :: orest =>
      if c.kind = o.kind then
        match canAddPair c o with
        | none => none
        | some true => equalCoeffs rest orest
        | some false => some false
      else equalCoeffs rest orest

/-- The kind-dispatched compatibility check inside `equal_coeffs` (the
`match` on the coefficient's kind); only called on equal kinds. -/
def canAddPair : Entity → Entity → Option Bool
  | .var a1 c1, .var a2 c2 => canAddVar a1 c1 a2 c2
  | .const _ _, .const _ _ => some false
  | _, _ => some true

/-- Rust `VariableTerm::can_add_if_collapsed`: the active variables must be equal
(name and power) and the coefficients compatible.  `&&` short-circuits, so
`equal_coeffs` (and its panics) is reached only on equal variables. -/
def canAddVar (a1 : VariableEntity) (c1 : List Entity) (a2 : VariableEntity) (c2 : List Entity) :
    Option Bool :=
  if a1 = a2 then equalCoeffs c1 c2 else some false
end

/-- Rust `VariableTerm::add`: drops the last coefficient of `self`, downcasts the
last coefficients of both sides to `ConstantTerm` (panicking — `none` — when
a list is empty or its last coefficient is not Constant) and appends their
`ConstantTerm::add` (values summed, `self`'s incidental list kept). -/
def varAdd (a1 : VariableEntity) (c1 c2 : List Entity) : Option Entity :=
  match c1.getLast?, c2.getLast? with
  | some (.const v1 l1), some (.const v2 _) =>
      some (.var a1 (c1.dropLast ++ [.const (qAdd v1 v2) l1]))
  | _, _ => none

/-- The coefficient loop of `VariableTerm::multiply`, over `other`'s
coefficients: Constant coefficients multiply into a running constant (which
starts as the bare constant 1, so incidental variables of the factors are
dropped), Variable coefficients add their active power into a running total,
Function coefficients are appended verbatim. -/
def varMultiplyAux : List Entity → ℚ → List Entity → Int → (ℚ × List Entity × Int)
  | [], cp, fp, dp => (cp, fp, dp)
  | .const v _ :: rest, cp, fp, dp => varMultiplyAux rest (qMul cp v) fp dp
  | .var ve _ :: rest, cp, fp, dp => varMultiplyAux rest cp fp (dp + ve.power)
  | f :: rest, cp, fp, dp => varMultiplyAux rest cp (fp ++ [f]) dp

/-- Rust `VariableTerm::multiply`: result keeps `self`'s variable name, its power
is the accumulated total plus both operands' active powers, and its
coefficients are `other`'s Function coefficients followed by the constant
product.  `self`'s own coefficients are ignored entirely. -/
def varMultiply (a1 : VariableEntity) (_c1 : List Entity) (a2 : VariableEntity)
    (c2 : List Entity) : Entity :=
  let r := varMultiplyAux c2 1 [] 0
  .var ⟨a1.name, r.2.2 + a1.power + a2.power⟩ (r.2.1 ++ [.const r.1 []])

/-- List indexing as the scan uses it (`self.terms[i]`; the indices the scan
produces are always in bounds, so the default is never returned). -/
def entAt (ts : List Entity) (i : Nat) : Entity :=
  ts.getD i default

/-- The inner `j` loop of `SummationFunction::collapse`: the first index
`j ≠ i` whose term has the same kind as term `i` (the loop `break`s at the
first kind match, mergeable or not). -/
def firstMatch (ts : List Entity) (i : Nat) : Option Nat :=
  (List.range ts.length).find? (fun j => decide (j ≠ i) && decide ((entAt ts j).kind = (entAt ts i).kind))

/-- The kind-dispatched merge attempt of `SummationFunction::collapse`
(only invoked on equal kinds): Constant and Variable pairs merge via
`can_add_if_collapsed`/`add` (inner `none` when not mergeable), Function
pairs never merge; outer `none` is a panic inside the check or the add. -/
def mergeStep : Entity → Entity → Option (Option Entity)
  | .const v1 l1, .const v2 l2 =>
      if canAddConst l1 l2 then some (some (.const (qAdd v1 v2) l1)) else some none
  | .var a1 c1, .var a2 c2 =>
      match canAddVar a1 c1 a2 c2 with
      | none => none
      | some false => some none
      | some true =>
          match varAdd a1 c1 c2 with
          | none => none
          | some t => some (some t)
  | _, _ => some none

/-- The mutable scan state of one pass of the `while` loop: the pending
`sum` (overwritten at every kind-matched index), the `did_change` flag and
the recorded indices `change_i` / `change_j` (updated only on a mergeable
pair). -/
structure ScanState where
  pending : Option Entity
  didChange : Bool
  changeI : Nat
  changeJ : Nat
deriving DecidableEq

/-- One step of the outer `i` loop: find the first kind-matching `j`; when
found, attempt the merge (propagating panics), overwrite the pending sum
with the attempt's result, and record the pair when it merged. -/
def scanStep (ts : List Entity) (st : ScanState) (i : Nat) : Option ScanState :=
  match firstMatch ts i with
  | none => some st
  | some j =>
      match mergeStep (entAt ts i) (entAt ts j) with
      | none => none
      | some s =>
          match s with
          | some _ => some ⟨s, true, i, j⟩
          | none => some { st with pending := s }

/-- The outer `i` loop over a list of indices. -/
def scanGo (ts : List Entity) : List Nat → ScanState → Option ScanState
  | [], st => some st
  | i :: rest, st =>
      match scanStep ts st i with
      | none => none
      | some st1 => scanGo ts rest st1

/-- One full scan over all ordered indices, starting from the fresh state of
a pass (`sum = None`, `did_change = false`; the recorded indices carry over
from the previous pass in the source but are only read behind `did_change`,
so the fixed initial value `0` is equivalent). -/
def scanAll (ts : List Entity) : Option ScanState :=
  scanGo ts (List.range ts.length) ⟨none, false, 0, 0⟩

/-- Rust `Vec::swap_remove(i)`: replace element `i` with the last element and pop;
panics (`none`) when `i` is out of bounds. -/
def swapRemove (l : List Entity) (i : Nat) : Option (List Entity) :=
  match l.getLast? with
  | none => none
  | some last => if i < l.length then some ((l.set i last).dropLast) else none

/-- One iteration of the `while did_change` loop body after the scan:
when a merge was recorded, `swap_remove(change_i)` then
`swap_remove(change_j)` and insert `sum.unwrap()` at the front — unwrapping
panics (`none`) when a later kind-matched pair overwrote the pending sum
with `None`.  `some none` reports an unchanged pass (loop exit),
`some (some ts')` a changed one. -/
def mergePass (ts : List Entity) : Option (Option (List Entity)) :=
  match scanAll ts with
  | none => none
  | some st =>
      if st.didChange then
        match st.pending with
        | none => none
        | some s =>
            match swapRemove ts st.changeI with
            | none => none
            | some ts1 =>
                match swapRemove ts1 st.changeJ with
                | none => none
                | some ts2 => some (some (s :: ts2))
      else some none

/-- The `while did_change` loop, indexed by the number of passes still
allowed (`none`: ran out of passes; `some none`: a pass panicked;
`some (some l)`: the loop exited normally with list `l`).  Fuel
`length + 1` is proved sufficient below. -/
def mergeLoopF : Nat → List Entity → Option (Option (List Entity))
  | 0, _ => none
  | fuel + 1, ts =>
      match mergePass ts with
      | none => some none
      | some none => some (some ts)
      | some (some ts1) => mergeLoopF fuel ts1

/-- Auxiliary: a successful swap-remove shortens the list by one. -/
theorem swapRemove_length {l : List Entity} {i : Nat} {l1 : List Entity}
    (h : swapRemove l i = some l1) : l1.length + 1 = l.length := by
  unfold swapRemove at h
  split at h
  · exact absurd h (by simp)
  · split at h
    · cases h
      rename_i hi
      simp only [List.length_dropLast, List.length_set]
      omega
    · exact absurd h (by simp)

/-- Auxiliary: a changed pass shortens the term list by exactly one (two
terms removed, the merged sum inserted at the front). -/
theorem mergePass_length {ts ts1 : List Entity}
    (h : mergePass ts = some (some ts1)) : ts1.length + 1 = ts.length := by
  unfold mergePass at h
  split at h
  · exact absurd h (by simp)
  · split at h
    · split at h
      · exact absurd h (by simp)
      · split at h
        · exact absurd h (by simp)
        · rename_i tsa h1
          split at h
          · exact absurd h (by simp)
          · rename_i tsb h2
            have e1 := swapRemove_length h1
            have e2 := swapRemove_length h2
            simp only [Option.some.injEq] at h
            subst h
            simp only [List.length_cons]
            omega
    · exact absurd h (by simp)

/-- The `while did_change` loop of `SummationFunction::collapse` as used by
`collapse`: fuel `length + 1` (proved sufficient and minimal-by-one below);
`none` is a panic. -/
def mergeLoop (ts : List Entity) : Option (List Entity) :=
  match mergeLoopF (ts.length + 1) ts with
  | none => none
  | some r => r

/-- The `while did_change` loop written without fuel, by well-founded
recursion on the term count (each changed pass shortens the list). -/
def mergeLoopW (ts : List Entity) : Option (List Entity) :=
  match h : mergePass ts with
  | none => none
  | some none => some ts
  | some (some ts1) => mergeLoopW ts1
termination_by ts.length
decreasing_by
  have := mergePass_length h
  omega

/-- Fuel `length + 1` computes the full loop: the fueled and the
well-founded renderings of the `while` loop agree. -/
theorem mergeLoopF_eq_loopW :
    ∀ (n : Nat) (ts : List Entity), ts.length < n →
      mergeLoopF n ts = some (mergeLoopW ts) := by
  intro n
  induction n with
  | zero => intro ts h; omega
  | succ m ih =>
      intro ts h
      rw [mergeLoopW]
      cases hp : mergePass ts with
      | none => simp [mergeLoopF, hp]
      | some r =>
          cases r with
          | none => simp [mergeLoopF, hp]
          | some ts1 =>
              have hlen := mergePass_length hp
              simp only [mergeLoopF, hp]
              exact ih ts1 (by omega)

/-- The fuel-free loop and the loop used by `collapse` agree on every
input. -/
theorem mergeLoop_eq_loopW (ts : List Entity) : mergeLoop ts = mergeLoopW ts := by
  unfold mergeLoop
  rw [mergeLoopF_eq_loopW (ts.length + 1) ts (by omega)]

/-- The tail of `MultiplicationFunction::collapse`, applied to the two
already-collapsed operands: the same-kind product fold followed by the
string-compared zero absorption.  Always yields a `mul` node (the Rust
method mutates the two fields in place). -/
def mulFinish (a b : Entity) : Option Entity :=
  let p : Option (Entity × Entity) :=
    if a.kind = b.kind then
      match a, b with
      | .const v1 l1, .const v2 l2 =>
          match constMultiply v1 l1 v2 l2 with
          | none => none
          | some (v, l) => some (.const v l, .const 1 [])
      | .var a1 c1, .var a2 c2 => some (varMultiply a1 c1 a2 c2, .const 1 [])
      | _, _ => some (.mul a b, .const 1 [])
    else some (a, b)
  match p with
  | none => none
  | some (f, s) =>
      if f.toStr = ['0'] ∨ s.toStr = ['0'] then some (.mul (.const 0 []) (.const 0 []))
      else some (.mul f s)


mutual
/-- Rust `Entity::collapse` for each node kind.  `ConstantTerm::collapse` groups
and sorts the incidental variables; `VariableTerm::collapse` folds the
coefficients (see `collapseCoeffs`); `SummationFunction::collapse` collapses
every term and runs the merge loop; `MultiplicationFunction::collapse`
collapses both operands, multiplies them when the kinds agree (resetting the
second operand to the constant 1), and finally forces both operands to the
constant 0 when either renders as the literal `"0"`. -/
def Entity.collapse : Entity → Option Entity
  | .const v vars => some (.const v (collapseVarList vars))
  | .var ve cs =>
      match collapseCoeffs ve.name cs 0 [] none with
      | none => none
      | some (dpow, funcs, constAcc) =>
          match constAcc with
          | some (cv, cl) => some (.var ⟨ve.name, ve.power + dpow⟩ (funcs ++ [.const cv (collapseVarList cl)]))
          | none => some (.var ⟨ve.name, ve.power + dpow⟩ (funcs ++ [.const 1 []]))
  | .sum ts =>
      match collapseList ts with
      | none => none
      | some ts1 =>
          match mergeLoop ts1 with
          | none => none
          | some ts2 => some (.sum ts2)
  | .mul a b =>
      match Entity.collapse a, Entity.collapse b with
      | some a1, some b1 => mulFinish a1 b1
      | _, _ => none

/-- The term loop of `SummationFunction::collapse` (each term collapsed in
place before the merge loop runs). -/
def collapseList : List Entity → Option (List Entity)
  | [] => some []
  | t :: rest =>
      match Entity.collapse t, collapseList rest with
      | some t1, some r1 => some (t1 :: r1)
      | _, _ => none

/-- The coefficient loop of `VariableTerm::collapse`, processed left to
right with the loop's accumulators: each coefficient is collapsed first; a
Variable-kind coefficient folds its active power into the running exponent
delta, but `panic!`s (`none`) when its name differs from the active
variable's; Constant-kind coefficients multiply into the running constant
(first one taken as-is, later ones via `ConstantTerm::multiply`, which can
itself panic); Function-kind coefficients are queued verbatim. -/
def collapseCoeffs (activeName : String) :
    List Entity → Int → List Entity → Option (ℚ × List VariableEntity) →
      Option (Int × List Entity × Option (ℚ × List VariableEntity))
  | [], dpow, funcs, constAcc => some (dpow, funcs, constAcc)
  | c :: rest, dpow, funcs, constAcc =>
      match Entity.collapse c with
      | none => none
      | some c1 =>
          match c1 with
          | .var ve2 _ =>
              if ve2.name = activeName then
                collapseCoeffs activeName rest (dpow + ve2.power) funcs constAcc
              else none
          | .const v2 l2 =>
              match constAcc with
              | none => collapseCoeffs activeName rest dpow funcs (some (v2, l2))
              | some (v1, l1) =>
                  match constMultiply v1 l1 v2 l2 with
                  | none => none
                  | some p => collapseCoeffs activeName rest dpow funcs (some p)
          | f => collapseCoeffs activeName rest dpow (funcs ++ [f]) constAcc
end

/-- Rust `SummationFunction::collapse` on the bare term list (collapse every
term, then run the merge loop); `SummationFunction::differentiate` and
`MultiplicationFunction::differentiate` call it directly on a
`SummationFunction` value, and `collapse_sum_eq` below records that
`Entity.collapse` on a `sum` node is exactly this. -/
def sumCollapse (ts : List Entity) : Option (List Entity) :=
  match collapseList ts with
  | none => none
  | some ts1 => mergeLoop ts1

theorem collapse_sum_eq (ts : List Entity) :
    Entity.collapse (.sum ts) = (sumCollapse ts).map Entity.sum := by
  unfold Entity.collapse sumCollapse
  cases collapseList ts with
  | none => rfl
  | some ts1 =>
      simp only
      cases mergeLoop ts1 with
      | none => rfl
      | some ts2 => rfl

mutual
/-- Rust `Entity::differentiate`, with the receiver threaded through explicitly:
`differentiateR fuel e = some (receiver-after-call, result)`.  All four Rust
implementations take `&self` and work on clones, so the returned receiver is
always the rebuilt input pattern; the claims about differentiation not
mutating the receiver are stated against this embedding.

`ConstantTerm::differentiate` yields the bare constant 0;
`VariableTerm::differentiate` decrements the active power and prepends the
old power as a new constant coefficient; `SummationFunction::differentiate`
collapses a clone, differentiates every term, and collapses the result;
`MultiplicationFunction::differentiate` collapses a clone and builds
`first * d(second) + second * d(first)` as a collapsed Summation.

The Rust recursion through `Function` nodes does not terminate on every
input (a Multiplication of two `Function`-kind operands reproduces itself
under `collapse`), so the recursion is bounded by fuel; `none` covers
running out of fuel as well as panics from `collapse`. -/
def differentiateR : Nat → Entity → Option (Entity × Entity)
  | _, .const v l => some (.const v l, .const 0 [])
  | _, .var ve cs =>
      some (.var ve cs, .var ⟨ve.name, ve.power - 1⟩ (.const (ve.power : ℚ) [] :: cs))
  | 0, .sum _ => none
  | 0, .mul _ _ => none
  | fuel + 1, .sum ts =>
      match sumCollapse ts with
      | none => none
      | some ts1 =>
          match diffList fuel ts1 with
          | none => none
          | some ds =>
              match sumCollapse ds with
              | none => none
              | some ts2 => some (.sum ts, .sum ts2)
  | fuel + 1, .mul a b =>
      match Entity.collapse (.mul a b) with
      | some (.mul f s) =>
          match differentiateR fuel f, differentiateR fuel s with
          | some (_, df), some (_, ds) =>
              match sumCollapse [Entity.mul f ds, Entity.mul s df] with
              | none => none
              | some ts2 => some (.mul a b, .sum ts2)
          | _, _ => none
      | _ => none
      -- the final wildcard also covers the impossible case of `collapse`
      -- returning a non-`mul` node (the Rust method mutates the two fields
      -- of the `MultiplicationFunction` in place)

/-- The term loop of `SummationFunction::differentiate`
(`sum.push(term.differentiate())`): the borrowed terms' receivers are
discarded, the results collected in order.  Fuel is consumed per list
element as well; that is an artifact of the embedding's termination
argument, not of the source, and every claim about `differentiate` is
stated at a fuel its computation verifiably completes in. -/
def diffList : Nat → List Entity → Option (List Entity)
  | _, [] => some []
  | 0, _ :: _ => none
  | fuel + 1, t :: rest =>
      match differentiateR fuel t, diffList fuel rest with
      | some (_, d), some ds => some (d :: ds)
      | _, _ => none
end

/-- Rust `differentiate` as the caller sees it: just the resulting tree. -/
def differentiate (fuel : Nat) (e : Entity) : Option Entity :=
  (differentiateR fuel e).map (fun p => p.2)

/-- The product of the incidental variables' values, for `evalE`. -/
def evalVars (ρ : String → ℚ) : List VariableEntity → ℚ
  | [] => 1
  | v :: rest => ρ v.name ^ v.power * evalVars ρ rest

mutual
/-- Modelled from the spec: the denotation of an expression tree as a
rational-valued function of its variables (§3's reading of the four node
kinds: a Constant is its value times its incidental variables' powers, a
VariableTerm the product of its coefficients times the active variable's
power, a Summation the sum of its terms, a Multiplication the product of its
operands).  The source has no evaluator; this is used only to state the
claim-side notion of an operand "simplifying to zero". -/
def evalE (ρ : String → ℚ) : Entity → ℚ
  | .const v vars => v * evalVars ρ vars
  | .var ve cs => evalProd ρ cs * ρ ve.name ^ ve.power
  | .sum ts => evalSum ρ ts
  | .mul a b => evalE ρ a * evalE ρ b

def evalProd (ρ : String → ℚ) : List Entity → ℚ
  | [] => 1
  | c :: rest => evalE ρ c * evalProd ρ rest

def evalSum (ρ : String → ℚ) : List Entity → ℚ
  | [] => 0
  | t :: rest => evalE ρ t + evalSum ρ rest
end

/-- Modelled from the spec: an expression "simplifies to 0" when it denotes
the zero function (the source has no evaluator; `evalE` is the spec's §3
reading of the four node kinds).  Used to state claim C7's hypothesis. -/
def IsZeroExpr (e : Entity) : Prop := ∀ ρ : String → ℚ, evalE ρ e = 0

/-! ## The scan of `SummationFunction::collapse`: claim C4's algorithm and
the characterization of the implemented one -/

/-- All ordered pairs `(i, j)`, `i ≠ j`, of indices below `n`, in scan order
(outer `i`, inner `j`). -/
def allPairs (n : Nat) : List (Nat × Nat) :=
  (List.range n).flatMap
    (fun i => ((List.range n).filter (fun j => decide (j ≠ i))).map (fun j => (i, j)))

/-- Claim C4's described scan, formalized from the claim's words: walk the
ordered pairs and stop at the **first** pair with equal kinds and
`canMergeWith` true, yielding its kind-specific add result
(`none`: a panic inside the check; `some none`: no mergeable pair). -/
def claimScan (ts : List Entity) : List (Nat × Nat) → Option (Option (Entity × Nat × Nat))
  | [] => some none
  | (i, j) :: rest =>
      if (entAt ts i).kind = (entAt ts j).kind then
        match mergeStep (entAt ts i) (entAt ts j) with
        | none => none
        | some none => claimScan ts rest
        | some (some s) => some (some (s, i, j))
      else claimScan ts rest

/-- Claim C4's described pass: on the first mergeable pair `(i, j)`,
swap-remove `i` then swap-remove `j` and insert the merged sum at the
front; report no change when no pair merges. -/
def claimPass (ts : List Entity) : Option (Option (List Entity)) :=
  match claimScan ts (allPairs ts.length) with
  | none => none
  | some none => some none
  | some (some (s, i, j)) =>
      match swapRemove ts i with
      | none => none
      | some ts1 =>
          match swapRemove ts1 j with
          | none => none
          | some ts2 => some (some (s :: ts2))

/-- Index `i`'s merge attempt panics: it has a kind-matched partner and
`mergeStep` on the pair aborts. -/
def panicAt (ts : List Entity) (i : Nat) : Bool :=
  match firstMatch ts i with
  | none => false
  | some j =>
      match mergeStep (entAt ts i) (entAt ts j) with
      | none => true
      | some _ => false

/-- Index `i` is kind-matched: it has a first equal-kind partner, so the
scan overwrites the pending sum at `i`. -/
def hitAt (ts : List Entity) (i : Nat) : Bool :=
  (firstMatch ts i).isSome

/-- Index `i` merges: its first equal-kind partner is mergeable. -/
def mergeAt (ts : List Entity) (i : Nat) : Bool :=
  match firstMatch ts i with
  | none => false
  | some j =>
      match mergeStep (entAt ts i) (entAt ts j) with
      | some (some _) => true
      | _ => false

/-- The pending sum the scan writes at a (non-panicking) kind-matched
index. -/
def pendingAt (ts : List Entity) (i : Nat) : Option Entity :=
  match firstMatch ts i with
  | none => none
  | some j =>
      match mergeStep (entAt ts i) (entAt ts j) with
      | some s => s
      | none => none

/-- The last index the scan kind-matches (the owner of the final pending
sum). -/
def lastKindMatched (ts : List Entity) : Option Nat :=
  (List.range ts.length).reverse.find? (hitAt ts)

/-- The last index that merges (the recorded `change_i`). -/
def lastMergeHit (ts : List Entity) : Option Nat :=
  (List.range ts.length).reverse.find? (mergeAt ts)

/-- What one pass of the implemented scan actually does, stated
declaratively (the amended form of claim C4): the pass panics when any
kind-matched index's merge attempt panics; otherwise, if no index merges it
reports no change; if some index merges but the **last** kind-matched index
does not merge, the pending sum has been overwritten with `None` and the
unwrap panics; otherwise the **last** merging index `i` (with its first
equal-kind partner `j`) is the recorded pair: swap-remove `i`, swap-remove
`j`, and the merged sum of `(i, j)` is inserted at the front. -/
def amendedPass (ts : List Entity) : Option (Option (List Entity)) :=
  if (List.range ts.length).any (panicAt ts) then none
  else
    match lastMergeHit ts with
    | none => some none
    | some i =>
        match lastKindMatched ts with
        | none => none
        | some k =>
            if mergeAt ts k then
              match firstMatch ts i with
              | none => none
              | some j =>
                  match mergeStep (entAt ts i) (entAt ts j) with
                  | some (some s) =>
                      match swapRemove ts i with
                      | none => none
                      | some ts1 =>
                          match swapRemove ts1 j with
                          | none => none
                          | some ts2 => some (some (s :: ts2))
                  | _ => none
            else none

/-- Splitting the scan over an index-list concatenation. -/
theorem scanGo_append (ts : List Entity) (l1 l2 : List Nat) :
    ∀ st, scanGo ts (l1 ++ l2) st =
      match scanGo ts l1 st with
      | none => none
      | some st1 => scanGo ts l2 st1 := by
  induction l1 with
  | nil => intro st; simp [scanGo]
  | cons i rest ih =>
      intro st
      simp only [List.cons_append, scanGo]
      cases scanStep ts st i with
      | none => rfl
      | some st1 => exact ih st1

/-- What the scan computes, in closed form: it aborts when any index's
merge attempt panics; otherwise the pending sum belongs to the **last**
kind-matched index, `did_change` records whether **any** index merged, and
the recorded pair belongs to the **last** merging index. -/
theorem scanGo_spec (ts : List Entity) (is : List Nat) :
    ∀ (st : ScanState),
      scanGo ts is st =
        if is.any (panicAt ts) then none
        else some ⟨
          (match is.reverse.find? (hitAt ts) with
           | none => st.pending
           | some i => pendingAt ts i),
          (st.didChange || is.any (mergeAt ts)),
          (match is.reverse.find? (mergeAt ts) with
           | none => st.changeI
           | some i => i),
          (match is.reverse.find? (mergeAt ts) with
           | none => st.changeJ
           | some i => (firstMatch ts i).getD 0)⟩ := by
  induction is using List.reverseRecOn with
  | nil => intro st; simp [scanGo]
  | append_singleton is i ih =>
      intro st
      rw [scanGo_append, ih st]
      by_cases hpn : is.any (panicAt ts) = true
      · simp [hpn]
      · have hpn2 : is.any (panicAt ts) = false := by rwa [Bool.not_eq_true] at hpn
        simp only [List.reverse_append, List.reverse_cons, List.reverse_nil, List.nil_append,
          List.cons_append, List.find?_cons, List.any_append, List.any_cons, List.any_nil]
        cases hfm : firstMatch ts i with
        | none =>
            have hp : panicAt ts i = false := by simp only [panicAt, hfm]
            have hh : hitAt ts i = false := by simp only [hitAt, hfm, Option.isSome_none]
            have hm : mergeAt ts i = false := by simp only [mergeAt, hfm]
            simp [scanGo, scanStep, hfm, hp, hh, hm, hpn2]
        | some j =>
            cases hms : mergeStep (entAt ts i) (entAt ts j) with
            | none =>
                have hp : panicAt ts i = true := by simp only [panicAt, hfm, hms]
                simp [scanGo, scanStep, hfm, hms, hp, hpn2]
            | some s =>
                have hp : panicAt ts i = false := by simp only [panicAt, hfm, hms]
                have hh : hitAt ts i = true := by simp only [hitAt, hfm, Option.isSome_some]
                have hpe : pendingAt ts i = s := by simp only [pendingAt, hfm, hms]
                cases s with
                | none =>
                    have hm : mergeAt ts i = false := by simp only [mergeAt, hfm, hms]
                    simp [scanGo, scanStep, hfm, hms, hp, hh, hm, hpe, hpn2]
                | some e =>
                    have hm : mergeAt ts i = true := by simp only [mergeAt, hfm, hms]
                    simp [scanGo, scanStep, hfm, hms, hp, hh, hm, hpe, hpn2]

/-- A merging index is in particular kind-matched. -/
theorem mergeAt_imp_hitAt (ts : List Entity) : ∀ i, mergeAt ts i = true → hitAt ts i = true := by
  intro i h
  unfold mergeAt at h
  unfold hitAt
  cases hfm : firstMatch ts i with
  | none => rw [hfm] at h; simp at h
  | some j => simp [hfm]

/-- When `p` implies `q`, the first `q`-element is `p`-satisfying, and a
first `p`-element exists, the two coincide. -/
theorem find?_eq_of_imp {α : Type} {p q : α → Bool} (himp : ∀ x, p x = true → q x = true) :
    ∀ (l : List α) (k i : α), l.find? q = some k → p k = true → l.find? p = some i → i = k := by
  intro l
  induction l with
  | nil => intro k i hk; simp at hk
  | cons a as ih =>
      intro k i hk hpk hi
      by_cases hqa : q a = true
      · rw [List.find?_cons_of_pos _ hqa] at hk
        cases hk
        by_cases hpa : p a = true
        · rw [List.find?_cons_of_pos _ hpa] at hi
          cases hi
          rfl
        · exact absurd hpk hpa
      · have hpa : ¬ p a = true := fun hpa => hqa (himp a hpa)
        rw [List.find?_cons_of_neg _ hqa] at hk
        rw [List.find?_cons_of_neg _ hpa] at hi
        exact ih k i hk hpk hi

/-- A kind-matched index that neither panics nor merges writes `None` into
the pending sum. -/
theorem pendingAt_none (ts : List Entity) (k : Nat) (hnp : panicAt ts k = false)
    (hm : mergeAt ts k = false) : pendingAt ts k = none := by
  unfold pendingAt
  cases hfm : firstMatch ts k with
  | none => simp [hfm]
  | some j =>
      cases hms : mergeStep (entAt ts k) (entAt ts j) with
      | none =>
          exfalso
          simp [panicAt, hfm, hms] at hnp
      | some s =>
          cases s with
          | none => simp [hfm, hms]
          | some e =>
              exfalso
              simp [mergeAt, hfm, hms] at hm

/-! ## `ConstantTerm::collapse` (grouping and sorting of incidental
variables): the lemmas behind its idempotence -/

/-- The order `Vec::sort` uses (`Ord for VariableEntity` compares names). -/
def nameLe (a b : VariableEntity) : Prop := a.name ≤ b.name

theorem mem_insertByName {x v : VariableEntity} :
    ∀ (l : List VariableEntity), x ∈ insertByName v l ↔ x = v ∨ x ∈ l := by
  intro l
  induction l with
  | nil => simp [insertByName]
  | cons w rest ih =>
      unfold insertByName
      split
      · simp [or_comm, or_assoc, or_left_comm]
      · simp [ih]
        tauto

theorem sorted_insertByName {v : VariableEntity} :
    ∀ {l : List VariableEntity}, List.Sorted nameLe l → List.Sorted nameLe (insertByName v l) := by
  intro l
  induction l with
  | nil => intro _; simp [insertByName, List.sorted_singleton]
  | cons w rest ih =>
      intro hs
      rw [List.sorted_cons] at hs
      obtain ⟨hw, hrest⟩ := hs
      unfold insertByName
      split
      · rename_i hle
        rw [List.sorted_cons]
        constructor
        · intro b hb
          rcases List.mem_cons.mp hb with hb | hb
          · subst hb; exact hle
          · exact le_trans hle (hw b hb)
        · rw [List.sorted_cons]; exact ⟨hw, hrest⟩
      · rename_i hgt
        have hvw : nameLe w v := le_of_not_le hgt
        rw [List.sorted_cons]
        constructor
        · intro b hb
          rcases (mem_insertByName rest).mp hb with hb | hb
          · subst hb; exact hvw
          · exact hw b hb
        · exact ih hrest

theorem sorted_sortByName (l : List VariableEntity) : List.Sorted nameLe (sortByName l) := by
  induction l with
  | nil => simp [sortByName, List.sorted_nil]
  | cons v rest ih =>
      have : sortByName (v :: rest) = insertByName v (sortByName rest) := rfl
      rw [this]
      exact sorted_insertByName ih

theorem perm_insertByName (v : VariableEntity) :
    ∀ (l : List VariableEntity), List.Perm (insertByName v l) (v :: l) := by
  intro l
  induction l with
  | nil => simp [insertByName]
  | cons w rest ih =>
      unfold insertByName
      split
      · exact List.Perm.refl _
      · exact List.Perm.trans (List.Perm.cons w ih) (List.Perm.swap v w rest)

theorem perm_sortByName : ∀ (l : List VariableEntity), List.Perm (sortByName l) l := by
  intro l
  induction l with
  | nil => exact List.Perm.refl _
  | cons v rest ih =>
      have h1 : sortByName (v :: rest) = insertByName v (sortByName rest) := rfl
      rw [h1]
      exact List.Perm.trans (perm_insertByName v _) (List.Perm.cons v ih)

theorem sortByName_of_sorted : ∀ {l : List VariableEntity}, List.Sorted nameLe l → sortByName l = l := by
  intro l
  induction l with
  | nil => intro _; rfl
  | cons v rest ih =>
      intro hs
      rw [List.sorted_cons] at hs
      obtain ⟨hv, hrest⟩ := hs
      have h1 : sortByName (v :: rest) = insertByName v (sortByName rest) := rfl
      rw [h1, ih hrest]
      cases rest with
      | nil => rfl
      | cons w rest2 =>
          unfold insertByName
          rw [if_pos (show v.name ≤ w.name from hv w (List.mem_cons_self w rest2))]

theorem collectNames_nodup :
    ∀ (l : List VariableEntity) (acc : List String), acc.Nodup → (collectNames l acc).Nodup := by
  intro l
  induction l with
  | nil => intro acc h; exact h
  | cons v rest ih =>
      intro acc h
      unfold collectNames
      split
      · exact ih acc h
      · rename_i hnm
        refine ih _ ?_
        simp [List.nodup_append, h, hnm]

theorem collectNames_of_nodup :
    ∀ (L : List VariableEntity) (acc : List String),
      (acc ++ L.map (fun v => v.name)).Nodup →
        collectNames L acc = acc ++ L.map (fun v => v.name) := by
  intro L
  induction L with
  | nil => intro acc _; simp [collectNames]
  | cons v rest ih =>
      intro acc h
      rw [List.map_cons] at h
      have h2 : ((acc ++ [v.name]) ++ rest.map (fun v => v.name)).Nodup := by
        rw [List.append_assoc]
        simpa using h
      have hnm : v.name ∉ acc := by
        rw [List.nodup_append] at h
        intro hmem
        exact h.2.2 hmem (List.mem_cons_self _ _)
      unfold collectNames
      rw [if_neg hnm, ih (acc ++ [v.name]) h2, List.map_cons, List.append_assoc]
      simp

theorem powerOfName_foldl_shift (n : String) :
    ∀ (l : List VariableEntity) (a : Int),
      l.foldl (fun acc v => if v.name = n then acc + v.power else acc) a =
        a + l.foldl (fun acc v => if v.name = n then acc + v.power else acc) 0 := by
  intro l
  induction l with
  | nil => intro a; simp
  | cons v rest ih =>
      intro a
      simp only [List.foldl_cons]
      rw [ih (if v.name = n then a + v.power else a), ih (if v.name = n then 0 + v.power else 0)]
      split <;> omega

theorem powerOfName_cons (v : VariableEntity) (rest : List VariableEntity) (n : String) :
    powerOfName (v :: rest) n = (if v.name = n then v.power else 0) + powerOfName rest n := by
  unfold powerOfName
  simp only [List.foldl_cons]
  rw [powerOfName_foldl_shift n rest]
  split <;> omega

theorem powerOfName_perm {l1 l2 : List VariableEntity} (h : List.Perm l1 l2) (n : String) :
    powerOfName l1 n = powerOfName l2 n := by
  induction h with
  | nil => rfl
  | cons x _ ih => simp [powerOfName_cons, ih]
  | swap x y l => simp only [powerOfName_cons]; omega
  | trans _ _ ih1 ih2 => rw [ih1, ih2]

theorem powerOfName_eq_zero {n : String} :
    ∀ {l : List VariableEntity}, n ∉ l.map (fun v => v.name) → powerOfName l n = 0 := by
  intro l
  induction l with
  | nil => intro _; rfl
  | cons v rest ih =>
      intro h
      simp only [List.map_cons, List.mem_cons] at h
      push_neg at h
      rw [powerOfName_cons, if_neg (fun he => h.1 he.symm), ih h.2]
      omega

theorem powerOfName_self_of_nodup :
    ∀ (L : List VariableEntity), (L.map (fun v => v.name)).Nodup →
      ∀ v ∈ L, powerOfName L v.name = v.power := by
  intro L
  induction L with
  | nil => intro _ v hv; simp at hv
  | cons w rest ih =>
      intro hnd v hv
      simp only [List.map_cons, List.nodup_cons] at hnd
      rcases List.mem_cons.mp hv with hv | hv
      · subst hv
        rw [powerOfName_cons, if_pos rfl, powerOfName_eq_zero hnd.1]
        omega
      · have hne : w.name ≠ v.name := by
          intro he
          exact hnd.1 (he ▸ List.mem_map_of_mem (fun v => v.name) hv)
        rw [powerOfName_cons, if_neg hne, ih hnd.2 v hv]
        omega

theorem collapseVarList_nodup_names (l : List VariableEntity) :
    ((collapseVarList l).map (fun v => v.name)).Nodup := by
  unfold collapseVarList
  have hperm : List.Perm
      ((sortByName ((collectNames l []).map (fun n => (⟨n, powerOfName l n⟩ : VariableEntity)))).map
        (fun v => v.name))
      (((collectNames l []).map (fun n => (⟨n, powerOfName l n⟩ : VariableEntity))).map
        (fun v => v.name)) :=
    List.Perm.map _ (perm_sortByName _)
  rw [List.Perm.nodup_iff hperm, List.map_map]
  have : ((fun v : VariableEntity => v.name) ∘ fun n => (⟨n, powerOfName l n⟩ : VariableEntity)) =
      fun n => n := rfl
  rw [this, List.map_id']
  exact collectNames_nodup l [] List.nodup_nil

theorem sorted_collapseVarList (l : List VariableEntity) :
    List.Sorted nameLe (collapseVarList l) := by
  unfold collapseVarList
  exact sorted_sortByName _

theorem collapseVarList_idem (l : List VariableEntity) :
    collapseVarList (collapseVarList l) = collapseVarList l := by
  have hnd := collapseVarList_nodup_names l
  have hsorted := sorted_collapseVarList l
  generalize hL : collapseVarList l = L at hnd hsorted
  unfold collapseVarList
  rw [collectNames_of_nodup L [] (by simpa using hnd)]
  simp only [List.nil_append, List.map_map]
  have hmap : L.map ((fun n => (⟨n, powerOfName L n⟩ : VariableEntity)) ∘ fun v => v.name) = L := by
    have hcong : ∀ v ∈ L,
        ((fun n => (⟨n, powerOfName L n⟩ : VariableEntity)) ∘ fun v => v.name) v = id v := by
      intro v hv
      have := powerOfName_self_of_nodup L hnd v hv
      simp only [Function.comp_apply, id]
      cases v with
      | mk nm pw => simp only at this ⊢; rw [this]
    rw [List.map_congr_left hcong, List.map_id]
  rw [hmap, sortByName_of_sorted hsorted]

/-! ## Decimal rendering lemmas (for the power-rule claim) -/

theorem natCharsAux_eq : ∀ (f n : Nat), n ≤ f →
    natCharsAux f n = ((Nat.digits 10 n).map digitChar).reverse := by
  intro f
  induction f with
  | zero =>
      intro n hn
      interval_cases n
      simp [natCharsAux]
  | succ m ih =>
      intro n hn
      cases n with
      | zero => simp [natCharsAux]
      | succ k =>
          have hd : Nat.digits 10 (k + 1) = ((k + 1) % 10) :: Nat.digits 10 ((k + 1) / 10) :=
            Nat.digits_def' (by norm_num) (Nat.succ_pos k)
          have hdiv : (k + 1) / 10 ≤ m := by
            have := Nat.div_lt_self (Nat.succ_pos k) (by norm_num : 1 < 10)
            omega
          simp [natCharsAux, ih _ hdiv, hd]

theorem natChars_eq {n : Nat} (h : n ≠ 0) :
    natChars n = ((Nat.digits 10 n).map digitChar).reverse := by
  unfold natChars
  rw [if_neg h, natCharsAux_eq n n le_rfl]

theorem digitChar_eq_zero {d : Nat} (hd : d < 10) : digitChar d = '0' ↔ d = 0 := by
  interval_cases d <;> simp [digitChar]

theorem digitChar_eq_one {d : Nat} (hd : d < 10) : digitChar d = '1' ↔ d = 1 := by
  interval_cases d <;> simp [digitChar]

theorem natChars_head_ne_zero {n : Nat} (h : n ≠ 0) : (natChars n).head? ≠ some '0' := by
  rw [natChars_eq h]
  have hne : Nat.digits 10 n ≠ [] := Nat.digits_ne_nil_iff_ne_zero.mpr h
  have hmapne : (Nat.digits 10 n).map digitChar ≠ [] := by simpa using hne
  rw [List.head?_reverse, List.getLast?_eq_getLast _ hmapne, List.getLast_map]
  intro hc
  simp only [Option.some.injEq] at hc
  have hlast := Nat.getLast_digit_ne_zero 10 h
  have hmem : (Nat.digits 10 n).getLast hne ∈ Nat.digits 10 n := List.getLast_mem hne
  have hlt : (Nat.digits 10 n).getLast hne < 10 := Nat.digits_lt_base (by norm_num) hmem
  exact hlast ((digitChar_eq_zero hlt).mp hc)

theorem natChars_eq_one_iff {n : Nat} : natChars n = ['1'] ↔ n = 1 := by
  constructor
  · intro h
    by_cases h0 : n = 0
    · subst h0; simp [natChars] at h
    · rw [natChars_eq h0] at h
      have : (Nat.digits 10 n).map digitChar = ['1'] := by
        have := congrArg List.reverse h
        simpa using this
      cases hd : Nat.digits 10 n with
      | nil => rw [hd] at this; simp at this
      | cons d rest =>
          rw [hd] at this
          cases rest with
          | nil =>
              simp only [List.map_cons, List.map_nil, List.cons.injEq, and_true] at this
              have hmem : d ∈ Nat.digits 10 n := by rw [hd]; exact List.mem_cons_self d []
              have hlt : d < 10 := Nat.digits_lt_base (by norm_num) hmem
              have hd1 : d = 1 := (digitChar_eq_one hlt).mp this
              have := Nat.ofDigits_digits 10 n
              rw [hd, hd1] at this
              simpa [Nat.ofDigits] using this.symm
          | cons d2 rest2 => rw [List.map_cons, List.map_cons] at this; simp at this
  · intro h
    subst h
    rfl

theorem startsWithZero_iff (s : List Char) : startsWithZero s = true ↔ s.head? = some '0' := by
  cases s with
  | nil => simp [startsWithZero]
  | cons c rest =>
      unfold startsWithZero
      split
      · rename_i heq
        injection heq with h1 h2
        subst h1
        simp
      · rename_i hne
        simp only [List.head?_cons, Option.some.injEq]
        constructor
        · intro hc
          exact absurd hc (by simp)
        · intro hc
          subst hc
          exact absurd rfl (hne rest)

theorem intChars_eq_one_iff {i : ℤ} : intChars i = ['1'] ↔ i = 1 := by
  constructor
  · intro h
    unfold intChars at h
    split at h
    · simp at h
    · rename_i hge
      have h1 : i.toNat = 1 := natChars_eq_one_iff.mp h
      omega
  · intro h
    subst h
    rfl

theorem intChars_not_startsWithZero {i : ℤ} (h : i ≠ 0) :
    startsWithZero (intChars i) = false := by
  rw [← Bool.not_eq_true, startsWithZero_iff]
  unfold intChars
  split
  · simp
  · rename_i hge
    have : i.toNat ≠ 0 := by omega
    exact natChars_head_ne_zero this

theorem constantToStr_intCast {n : ℤ} (h : n ≠ 0) : constantToStr (n : ℚ) [] = intChars n := by
  unfold constantToStr
  rw [if_neg (by exact_mod_cast h)]
  simp [valueChars]

/-- Rust `VariableTerm::collapse` preserves the active variable's name. -/
theorem collapse_var_name (ve2 : VariableEntity) (cs2 : List Entity) (c1 : Entity)
    (h : Entity.collapse (.var ve2 cs2) = some c1) :
    ∃ p coeffs2, c1 = .var ⟨ve2.name, p⟩ coeffs2 := by
  simp only [Entity.collapse] at h
  split at h
  · exact Option.noConfusion h
  · split at h
    · rename_i cv cl _ _
      injection h with h2
      exact ⟨_, _, h2.symm⟩
    · injection h with h2
      exact ⟨_, _, h2.symm⟩

theorem collapseCoeffs_foreign (name : String) :
    ∀ (cs : List Entity) (dpow : Int) (funcs : List Entity)
      (acc : Option (ℚ × List VariableEntity)),
      (∃ c ∈ cs, ∃ ve2 cs2, c = Entity.var ve2 cs2 ∧ ve2.name ≠ name) →
      collapseCoeffs name cs dpow funcs acc = none := by
  intro cs
  induction cs with
  | nil =>
      intro dpow funcs acc hw
      obtain ⟨c, hc, _⟩ := hw
      simp at hc
  | cons c rest ih =>
      intro dpow funcs acc hw
      unfold collapseCoeffs
      cases hcol : Entity.collapse c with
      | none => rfl
      | some c1 =>
          obtain ⟨w, hwmem, ve2, cs2, hwvar, hforeign⟩ := hw
          rcases List.mem_cons.mp hwmem with hwc | hwrest
          · subst hwc
            subst hwvar
            obtain ⟨p, coeffs2, hshape⟩ := collapse_var_name ve2 cs2 c1 hcol
            subst hshape
            simp only
            rw [if_neg hforeign]
          · have hex : ∃ c ∈ rest, ∃ ve2 cs2, c = Entity.var ve2 cs2 ∧ ve2.name ≠ name :=
              ⟨w, hwrest, ve2, cs2, hwvar, hforeign⟩
            cases c1 with
            | var ve3 cs3 =>
                simp only
                split
                · exact ih _ _ _ hex
                · rfl
            | const v2 l2 =>
                simp only
                cases acc with
                | none => exact ih _ _ _ hex
                | some pr =>
                    obtain ⟨v1, l1⟩ := pr
                    dsimp only
                    cases hm : constMultiply v1 l1 v2 l2 with
                    | none => rfl
                    | some q =>
                        show collapseCoeffs name rest dpow funcs (some q) = none
                        exact ih dpow funcs (some q) hex
            | sum ts => exact ih _ _ _ hex
            | mul x y => exact ih _ _ _ hex

theorem collapseCoeffs_vars (name : String) :
    ∀ (ps : List Int) (dpow : Int) (funcs : List Entity)
      (acc : Option (ℚ × List VariableEntity)),
      collapseCoeffs name (ps.map (fun p => .var ⟨name, p⟩ [])) dpow funcs acc =
        some (dpow + ps.sum, funcs, acc) := by
  intro ps
  induction ps with
  | nil => intro dpow funcs acc; simp [collapseCoeffs]
  | cons p rest ih =>
      intro dpow funcs acc
      have hcol : Entity.collapse (.var ⟨name, p⟩ []) =
          some (.var ⟨name, p + 0⟩ [.const 1 []]) := by
        simp [Entity.collapse, collapseCoeffs]
      simp only [List.map_cons]
      unfold collapseCoeffs
      rw [hcol]
      simp only [if_true]
      rw [ih]
      have : dpow + (p + 0) + rest.sum = dpow + (p :: rest).sum := by
        simp [List.sum_cons]
        ring
      rw [this]

/-! ## Claim theorems -/

/-- C1, counterexample: differentiating `x^3 * x^2` (fuel 5 is ample: the
computation returns `some`) does **not** produce the canonical result of
differentiating `x^5`.  The latter is the single Variable term
`x^4 [const 5]`; the former is a `SummationFunction` wrapping
`0 * 0` and `1 * (5 x^4)`, a different tree. -/
theorem C1_counterexample :
    differentiate 5 (.mul (.var ⟨"x", 3⟩ []) (.var ⟨"x", 2⟩ [])) =
      some (.sum [.mul (.const 0 []) (.const 0 []),
                  .mul (.const 1 []) (.var ⟨"x", 4⟩ [.const 5 []])]) ∧
    differentiate 5 (.var ⟨"x", 5⟩ []) = some (.var ⟨"x", 4⟩ [.const 5 []]) ∧
    differentiate 5 (.mul (.var ⟨"x", 3⟩ []) (.var ⟨"x", 2⟩ [])) ≠
      differentiate 5 (.var ⟨"x", 5⟩ []) := by decide

/-- C1, amended: `d/dx [x^3 * x^2]` yields a Summation (its terms being
`0 * 0` and `1 * (5 x^4)`), not a single Variable term; it is however
render-equal to `d/dx [x^5]`: both render as `"5x^4"`. -/
theorem C1_amended_render_eq :
    (differentiate 5 (.mul (.var ⟨"x", 3⟩ []) (.var ⟨"x", 2⟩ []))).map Entity.toStr =
      some "5x^4".toList ∧
    (differentiate 5 (.var ⟨"x", 5⟩ [])).map Entity.toStr = some "5x^4".toList := by decide

/-- C5: on the simplified constants `1`, `2` (no incidental variables) and
`3` (incidental `y`), the scan of `SummationFunction::collapse` ends with
`did_change` set by the mergeable pair `(1, 0)` but with the pending sum
overwritten to `None` by the same-kind non-mergeable pair `(2, 0)`, so
`sum.unwrap()` panics: `collapse` aborts (`none`). -/
theorem C5_thm :
    scanAll [Entity.const 1 [], Entity.const 2 [], Entity.const 3 [⟨"y", 1⟩]] =
      some ⟨none, true, 1, 0⟩ ∧
    Entity.collapse (.sum [.const 1 [], .const 2 [], .const 3 [⟨"y", 1⟩]]) = none := by decide

/-- C3, counterexample: simplify is not idempotent.  On the
MultiplicationFunction with the two Function-kind operands `sum [x]`,
each simplify wraps the product in a fresh multiplication-by-1
(`(A*B) * 1`, then `((A*B) * 1) * 1`), so the second simplify yields a
strictly larger tree than the first. -/
theorem C3_counterexample :
    Entity.collapse (.mul (.sum [.var ⟨"x", 1⟩ []]) (.sum [.var ⟨"x", 1⟩ []])) =
      some (.mul (.mul (.sum [.var ⟨"x", 1⟩ [.const 1 []]]) (.sum [.var ⟨"x", 1⟩ [.const 1 []]]))
            (.const 1 [])) ∧
    (Entity.collapse (.mul (.sum [.var ⟨"x", 1⟩ []]) (.sum [.var ⟨"x", 1⟩ []]))).bind
        Entity.collapse =
      some (.mul (.mul (.mul (.sum [.var ⟨"x", 1⟩ [.const 1 []]])
              (.sum [.var ⟨"x", 1⟩ [.const 1 []]])) (.const 1 [])) (.const 1 [])) ∧
    (Entity.collapse (.mul (.sum [.var ⟨"x", 1⟩ []]) (.sum [.var ⟨"x", 1⟩ []]))).bind
        Entity.collapse ≠
      Entity.collapse (.mul (.sum [.var ⟨"x", 1⟩ []]) (.sum [.var ⟨"x", 1⟩ []])) := by decide

/-- C4, counterexample: the pass does **not** act on the first mergeable
ordered pair.  On the two mergeable constants `[1, 2]` the claim's
algorithm (`claimPass`, formalized from the claim's words) picks the pair
`(0, 1)` and its removal order swap-remove 0 then swap-remove 1 runs out of
bounds (a panic), while the implemented pass acts on the **last** merging
index — the pair `(1, 0)` — and merges successfully. -/
theorem C4_counterexample :
    claimPass [Entity.const 1 [], Entity.const 2 []] = none ∧
    mergePass [Entity.const 1 [], Entity.const 2 []] = some (some [Entity.const 3 []]) ∧
    claimPass [Entity.const 1 [], Entity.const 2 []] ≠
      mergePass [Entity.const 1 [], Entity.const 2 []] := by decide

/-- C4, amended: one pass of `SummationFunction::collapse`'s scan panics
when any kind-matched index's merge attempt panics; otherwise, when no index
merges it reports no change (loop exit); when some index merges but the
**last** kind-matched index does not, the pending sum was overwritten with
`None` and the `unwrap` panics; otherwise the **last** merging index `i`
and its **first** equal-kind partner `j` are removed (swap-remove `i`, then
swap-remove `j`) and their kind-specific add result is inserted at the
front.  The loop restarts after a changed pass and halts after an unchanged
one (`mergeLoopF`). -/
theorem C4_amended_pass_eq (ts : List Entity) : mergePass ts = amendedPass ts := by
  unfold mergePass scanAll amendedPass lastMergeHit lastKindMatched
  rw [scanGo_spec]
  by_cases hpn : (List.range ts.length).any (panicAt ts) = true
  · simp [hpn]
  · have hpn2 : (List.range ts.length).any (panicAt ts) = false := by
      rwa [Bool.not_eq_true] at hpn
    simp only [hpn2, Bool.false_eq_true, if_false, Bool.false_or]
    cases hM : (List.range ts.length).reverse.find? (mergeAt ts) with
    | none =>
        have hanyM : (List.range ts.length).any (mergeAt ts) = false := by
          rw [List.any_eq_false]
          intro x hx
          have := List.find?_eq_none.mp hM x (by simpa using hx)
          simpa using this
        simp [hanyM]
    | some i =>
        have hmi : mergeAt ts i = true := List.find?_some hM
        have himem : i ∈ List.range ts.length := by
          have := List.mem_of_find?_eq_some hM
          simpa using this
        have hanyM : (List.range ts.length).any (mergeAt ts) = true := by
          rw [List.any_eq_true]
          exact ⟨i, himem, hmi⟩
        cases hK : (List.range ts.length).reverse.find? (hitAt ts) with
        | none =>
            exfalso
            have := List.find?_eq_none.mp hK i (by simpa using himem)
            exact this (mergeAt_imp_hitAt ts i hmi)
        | some k =>
            have hhk : hitAt ts k = true := List.find?_some hK
            have hkmem : k ∈ List.range ts.length := by
              have := List.mem_of_find?_eq_some hK
              simpa using this
            by_cases hmk : mergeAt ts k = true
            · have hik : i = k := find?_eq_of_imp (mergeAt_imp_hitAt ts) _ k i hK hmk hM
              subst hik
              have hme := hmi
              unfold mergeAt at hme
              cases hfm : firstMatch ts i with
              | none => simp [hfm] at hme
              | some j =>
                  cases hms : mergeStep (entAt ts i) (entAt ts j) with
                  | none => simp [hfm, hms] at hme
                  | some s =>
                      cases s with
                      | none => simp [hfm, hms] at hme
                      | some e =>
                          have hpe : pendingAt ts i = some e := by
                            simp [pendingAt, hfm, hms]
                          simp [hanyM, hmi, hpe, hfm, hms]
            · have hmk2 : mergeAt ts k = false := by rwa [Bool.not_eq_true] at hmk
              have hpk : panicAt ts k = false := by
                have := List.any_eq_false.mp hpn2 k hkmem
                rwa [Bool.not_eq_true] at this
              have hpe := pendingAt_none ts k hpk hmk2
              simp [hanyM, hpe, hmk2]

/-- C6: simplifying a two-term sum of constants whose incidental-variable
lists agree after `ConstantTerm::collapse` (the code's reading of "equal
incidental-variable sets") merges them into exactly one term whose value is
the sum of the two values; the surviving incidental list is the second
constant's (the merge acts via `terms[1].add(terms[0])`). -/
theorem C6_thm (v1 v2 : ℚ) (l1 l2 : List VariableEntity)
    (h : collapseVarList l1 = collapseVarList l2) :
    Entity.collapse (.sum [.const v1 l1, .const v2 l2]) =
      some (.sum [.const (v1 + v2) (collapseVarList l2)]) := by
  simp only [Entity.collapse, collapseList, h]
  simp [mergeLoop, mergeLoopF, mergePass, scanAll, scanGo, scanStep, firstMatch, mergeStep,
    canAddConst, swapRemove, List.range_succ, Entity.kind, entAt, List.find?, qAdd_eq, add_comm]

/-- C6, witness: constants `1` and `2`, both with incidental `y`. -/
theorem C6_witness :
    Entity.collapse (.sum [.const 1 [⟨"y", 1⟩], .const 2 [⟨"y", 1⟩]]) =
      some (.sum [.const ((1 : ℚ) + 2) (collapseVarList [⟨"y", 1⟩])]) :=
  C6_thm 1 2 [⟨"y", 1⟩] [⟨"y", 1⟩] rfl

/-- C9: `differentiate` never mutates its receiver: whenever the embedded
`differentiateR` (which threads the receiver of the Rust `&self` call
explicitly) returns, the returned receiver equals the input tree, for every
node kind and every fuel. -/
theorem C9_thm : ∀ (fuel : Nat) (e : Entity) (p : Entity × Entity),
    differentiateR fuel e = some p → p.1 = e := by
  intro fuel e p h
  cases e with
  | const v l =>
      cases fuel <;> (simp [differentiateR] at h; simp [← h])
  | var ve cs =>
      cases fuel <;> (simp [differentiateR] at h; simp [← h])
  | sum ts =>
      cases fuel with
      | zero => simp [differentiateR] at h
      | succ n =>
          simp only [differentiateR] at h
          repeat' split at h
          all_goals first
            | exact Option.noConfusion h
            | (injection h with h2; cases h2; rfl)
  | mul a b =>
      cases fuel with
      | zero => simp [differentiateR] at h
      | succ n =>
          simp only [differentiateR] at h
          repeat' split at h
          all_goals first
            | exact Option.noConfusion h
            | (injection h with h2; cases h2; rfl)

/-- C9, witness: differentiating the constant `1` returns receiver
`const 1 []` unchanged. -/
theorem C9_witness : ((Entity.const 1 [], Entity.const 0 []) : Entity × Entity).1 =
    Entity.const 1 [] :=
  C9_thm 1 (.const 1 []) (Entity.const 1 [], Entity.const 0 []) (by decide)

/-- C10, amended: every changed pass of the fixed-point loop shortens the
term list by exactly one; fuel `initial length + 1` always completes the
loop and agrees with the fuel-free well-founded rendering `mergeLoopW` (so
the loop terminates on every input); and the loop `collapse` runs is that
same function.  The claim's bound of the pass count by the initial term
count alone fails only for the empty list (the `while` body still runs
once); one extra pass is the exact bound. -/
theorem C10_amended :
    (∀ ts ts1, mergePass ts = some (some ts1) → ts1.length + 1 = ts.length) ∧
    (∀ ts, mergeLoopF (ts.length + 1) ts = some (mergeLoopW ts)) ∧
    (∀ ts, mergeLoop ts = mergeLoopW ts) :=
  ⟨fun _ _ h => mergePass_length h,
   fun ts => mergeLoopF_eq_loopW (ts.length + 1) ts (by omega),
   mergeLoop_eq_loopW⟩

/-- C10, counterexample to the stated bound: on the empty term list the
loop still executes one (unchanged) pass, so fuel equal to the initial term
count (0) does not complete it while one pass more does. -/
theorem C10_counterexample :
    mergeLoopF (List.length ([] : List Entity)) ([] : List Entity) = none ∧
    mergeLoopF 1 ([] : List Entity) = some (some []) := by decide

/-- C10, witness: a concrete changed pass (`[1, 2] ↦ [3]`) shortens the
list by one, and fuel `length + 1` computes the loop on `[3]`. -/
theorem C10_witness :
    ([Entity.const 3 []].length) + 1 =
      ([Entity.const 1 [], Entity.const 2 []] : List Entity).length ∧
    mergeLoopF 2 [Entity.const 3 []] = some (mergeLoopW [Entity.const 3 []]) :=
  ⟨C10_amended.1 [Entity.const 1 [], Entity.const 2 []] [Entity.const 3 []] (by decide),
   C10_amended.2.1 [Entity.const 3 []]⟩

/-- C2, counterexample: for `n = 1`, `differentiate(makeVariable("x", 1))`
renders as `"x^0"`, not as the constant `"1"` the claim requires: the
coefficient 1 is suppressed but the zero exponent is not. -/
theorem C2_counterexample :
    (differentiate 1 (.var ⟨"x", 1⟩ [])).map Entity.toStr = some "x^0".toList ∧
    "x^0".toList ≠ "1".toList := by decide

/-- C2, amended: for every integer `n`, `differentiate(makeVariable("x", n))`
renders with coefficient `n` and exponent `n - 1` under the code's
conventions: `"0"` for `n = 0`; the coefficient is omitted when it is 1 and
the `^exponent` is omitted when the exponent is 1; no `*` separates the
coefficient from the variable; in particular `n = 1` renders `"x^0"`
(the claim's `"1"` is wrong), `n = 2` renders `"2x"`, and e.g. `n = 5`
renders `"5x^4"`. -/
theorem C2_amended (n : ℤ) :
    (differentiate 1 (.var ⟨"x", n⟩ [])).map Entity.toStr =
      some (if n = 0 then ['0']
            else (if n = 1 then [] else intChars n) ++
                 (if n = 2 then ['x'] else 'x' :: '^' :: intChars (n - 1))) := by
  have hD : differentiate 1 (.var ⟨"x", n⟩ []) = some (.var ⟨"x", n - 1⟩ [.const (n : ℚ) []]) := by
    simp [differentiate, differentiateR]
  rw [hD]
  by_cases h0 : n = 0
  · subst h0
    simp [Entity.toStr, coeffsToStr, constantToStr, startsWithZero]
  · have hcs : constantToStr (n : ℚ) [] = intChars n := constantToStr_intCast h0
    have hnz : startsWithZero (intChars n) = false := intChars_not_startsWithZero h0
    by_cases h1 : n = 1
    · subst h1
      decide
    · have hne1 : ¬ (intChars n = ['1']) := fun hc => h1 (intChars_eq_one_iff.mp hc)
      by_cases h2 : n = 2
      · subst h2
        decide
      · have hp : n - 1 ≠ 1 := by omega
        simp [Entity.toStr, coeffsToStr, hcs, hne1, hnz, VariableEntity.render, h0, h1, h2, hp]

/-- C3, amended: simplify is idempotent on Constant-kind terms: collapsing
the incidental-variable list (group by name, sum powers, sort by name) is
idempotent, so a second `collapse` is the identity there.  (The
counterexample above shows idempotence fails for Function-Function
multiplications.) -/
theorem C3_amended_const_idem (v : ℚ) (l : List VariableEntity) :
    (Entity.collapse (.const v l)).bind Entity.collapse = Entity.collapse (.const v l) := by
  simp [Entity.collapse, collapseVarList_idem]

/-- C7, counterexample: zero absorption does not cover every operand that
simplifies to zero.  The first operand `sum [const 0]` is semantically zero
and is its own simplified form, but it renders as the empty string (its
only term is skipped for rendering with a leading `0`), so the
string-comparison absorption check `to_str() == "0"` does not fire: after
simplify the operands render `""` and `"x"`, not `"0"` and `"0"`. -/
theorem C7_counterexample :
    IsZeroExpr (.sum [.const 0 []]) ∧
    Entity.collapse (.sum [.const 0 []]) = some (.sum [.const 0 []]) ∧
    Entity.collapse (.mul (.sum [.const 0 []]) (.var ⟨"x", 1⟩ [])) =
      some (.mul (.sum [.const 0 []]) (.var ⟨"x", 1⟩ [.const 1 []])) ∧
    Entity.toStr (.sum [.const 0 []]) = [] ∧
    Entity.toStr (.var ⟨"x", 1⟩ [.const 1 []]) = "x".toList ∧
    ([] : List Char) ≠ "0".toList ∧ "x".toList ≠ "0".toList := by
  refine ⟨?_, by decide, by decide, by decide, by decide, by decide, by decide⟩
  intro ρ
  simp [evalE, evalSum, evalVars]

/-- C7, amended: the absorption the code implements is string-keyed: if
after simplifying a MultiplicationFunction (child collapse plus same-kind
product fold) either operand renders as the literal `"0"`, then both
operands are the constant 0 and render `"0"`. -/
theorem C7_amended (a b f s : Entity)
    (hc : Entity.collapse (.mul a b) = some (.mul f s))
    (h0 : f.toStr = ['0'] ∨ s.toStr = ['0']) :
    f = .const 0 [] ∧ s = .const 0 [] ∧ f.toStr = ['0'] ∧ s.toStr = ['0'] := by
  simp only [Entity.collapse] at hc
  split at hc
  · unfold mulFinish at hc
    simp only at hc
    repeat' split at hc
    all_goals first
      | exact Option.noConfusion hc
      | (injection hc with hc2; injection hc2 with hf hs; subst hf; subst hs;
         exact ⟨rfl, rfl, by decide, by decide⟩)
      | (injection hc with hc2; injection hc2 with hf hs; subst hf; subst hs;
         rename_i hnz; exact absurd h0 hnz)
  · exact Option.noConfusion hc

/-- C7, witness: multiplying the constant 0 by `x` renders both operands as
`"0"` after simplify. -/
theorem C7_witness :
    (Entity.const 0 [] : Entity) = .const 0 [] ∧ (Entity.const 0 [] : Entity) = .const 0 [] ∧
    (Entity.const 0 [] : Entity).toStr = ['0'] ∧ (Entity.const 0 [] : Entity).toStr = ['0'] :=
  C7_amended (.const 0 []) (.var ⟨"x", 1⟩ []) (.const 0 []) (.const 0 [])
    (by decide) (Or.inl (by decide))

/-- C8, amended: a Variable-kind coefficient whose name differs from the
active variable's does make `VariableTerm::collapse` panic (first
conjunct), and folding same-named bare Variable coefficients completes
normally, adding their exponents into the active exponent with the default
constant 1 appended (second conjunct).  The "only if" half of the claim is
refuted separately: constant coefficients can also panic. -/
theorem C8_amended :
    (∀ (ve : VariableEntity) (cs : List Entity),
        (∃ c ∈ cs, ∃ ve2 cs2, c = Entity.var ve2 cs2 ∧ ve2.name ≠ ve.name) →
        Entity.collapse (.var ve cs) = none) ∧
    (∀ (name : String) (pw : Int) (ps : List Int),
        Entity.collapse (.var ⟨name, pw⟩ (ps.map (fun p => .var ⟨name, p⟩ []))) =
          some (.var ⟨name, pw + ps.sum⟩ [.const 1 []])) := by
  constructor
  · intro ve cs hw
    simp only [Entity.collapse]
    rw [collapseCoeffs_foreign ve.name cs 0 [] none hw]
  · intro name pw ps
    simp only [Entity.collapse]
    rw [collapseCoeffs_vars name ps 0 [] none]
    simp

/-- C8, counterexample to the "only if" direction: a `VariableTerm` whose
coefficients are the two constants `2·y` and `3` (no Variable-kind
coefficient anywhere) still panics: the constant fold multiplies `2·y` by
`3` and `ConstantTerm::multiply` indexes the shorter incidental list out of
bounds. -/
theorem C8_counterexample :
    Entity.collapse (.var ⟨"x", 1⟩ [.const 2 [⟨"y", 1⟩], .const 3 []]) = none ∧
    ([Entity.const 2 [⟨"y", 1⟩], Entity.const 3 []].all
      (fun c => c.kind != EntityKind.Variable)) = true := by decide

/-- C8, witness for the amended panic direction: coefficient `z^2` under
active variable `x` aborts the collapse. -/
theorem C8_witness :
    Entity.collapse (.var ⟨"x", 1⟩ [.var ⟨"z", 2⟩ []]) = none :=
  C8_amended.1 ⟨"x", 1⟩ [.var ⟨"z", 2⟩ []]
    ⟨.var ⟨"z", 2⟩ [], List.mem_singleton.mpr rfl, ⟨"z", 2⟩, [], rfl, by decide⟩

end CalculusSolver
